import Mathlib

/-!
Verification of the elasty constraint-projection core (`src/constraint.cpp`).

The embedding models Eigen's double-precision vectors with idealized real
arithmetic.  Code paths that manufacture IEEE non-finite values (NaN from
`normalized()` of a zero vector, Inf/NaN from a division by an exactly zero
denominator) are modelled explicitly: a computation whose output would be
NaN-contaminated is `none`.  Eigen's `isApprox(Zero)` test compares
`‖v - 0‖ ≤ prec * min(‖v‖, ‖0‖) = 0`, so it holds exactly for the zero
vector (and is false on NaN); it is modelled as exact equality with zero.
-/

namespace Elasty

open Classical

/-- A 3-component real vector, modelling `Eigen::Vector3d`. -/
@[ext]
structure Vec3 where
  x : ℝ
  y : ℝ
  z : ℝ

namespace Vec3

/-- `Eigen::Vector3d::Zero()`. -/
def zero : Vec3 := ⟨0, 0, 0⟩

instance : Zero Vec3 := ⟨zero⟩

instance : Add Vec3 := ⟨fun a b => ⟨a.x + b.x, a.y + b.y, a.z + b.z⟩⟩

instance : Sub Vec3 := ⟨fun a b => ⟨a.x - b.x, a.y - b.y, a.z - b.z⟩⟩

instance : Neg Vec3 := ⟨fun a => ⟨-a.x, -a.y, -a.z⟩⟩

instance : SMul ℝ Vec3 := ⟨fun c a => ⟨c * a.x, c * a.y, c * a.z⟩⟩

instance : AddCommMonoid Vec3 where
  add_assoc a b c := by ext <;> exact add_assoc ..
  zero_add a := by ext <;> exact zero_add ..
  add_zero a := by ext <;> exact add_zero ..
  add_comm a b := by ext <;> exact add_comm ..
  nsmul := nsmulRec

/-- The Euclidean dot product `a.dot(b)`. -/
def dot (a b : Vec3) : ℝ := a.x * b.x + a.y * b.y + a.z * b.z

/-- The cross product `a.cross(b)`. -/
def cross (a b : Vec3) : Vec3 :=
  ⟨a.y * b.z - a.z * b.y, a.z * b.x - a.x * b.z, a.x * b.y - a.y * b.x⟩

/-- `a.norm()`. -/
noncomputable def norm (a : Vec3) : ℝ := Real.sqrt (dot a a)

/-- `a.normalized() = a / a.norm()`.  When `a = 0` the components of the
result are IEEE `0/0 = NaN`; every call site of this definition handles that
case explicitly, so this definition is only ever used on nonzero input. -/
noncomputable def normalized (a : Vec3) : Vec3 := (1 / norm a) • a

/-- Componentwise product: the action of `v.asDiagonal()` on a vector. -/
def cmul (a b : Vec3) : Vec3 := ⟨a.x * b.x, a.y * b.y, a.z * b.z⟩

end Vec3

/-- A 3x3 real matrix (rows), modelling `Eigen::Matrix3d`. -/
@[ext]
structure Mat3 where
  r0 : Vec3
  r1 : Vec3
  r2 : Vec3

namespace Mat3

instance : Add Mat3 := ⟨fun a b => ⟨a.r0 + b.r0, a.r1 + b.r1, a.r2 + b.r2⟩⟩

instance : Neg Mat3 := ⟨fun a => ⟨-a.r0, -a.r1, -a.r2⟩⟩

instance : SMul ℝ Mat3 := ⟨fun c a => ⟨c • a.r0, c • a.r1, c • a.r2⟩⟩

/-- `m.transpose()`. -/
def transpose (m : Mat3) : Mat3 :=
  ⟨⟨m.r0.x, m.r1.x, m.r2.x⟩, ⟨m.r0.y, m.r1.y, m.r2.y⟩, ⟨m.r0.z, m.r1.z, m.r2.z⟩⟩

/-- Matrix–vector product `m * v`. -/
def mulVec (m : Mat3) (v : Vec3) : Vec3 := ⟨Vec3.dot m.r0 v, Vec3.dot m.r1 v, Vec3.dot m.r2 v⟩

/-- Outer product `a * b.transpose()`: entry (i, j) is `a_i * b_j`. -/
def outer (a b : Vec3) : Mat3 :=
  ⟨⟨a.x * b.x, a.x * b.y, a.x * b.z⟩, ⟨a.y * b.x, a.y * b.y, a.y * b.z⟩,
   ⟨a.z * b.x, a.z * b.y, a.z * b.z⟩⟩

end Mat3

/-- `convert_vector_to_cross_operator` from `constraint.cpp`: the skew matrix
with `mat(0,1) = +z`, `mat(0,2) = -y`, `mat(1,0) = -z`, `mat(1,2) = +x`,
`mat(2,0) = +y`, `mat(2,1) = -x`. -/
def convertVectorToCrossOperator (v : Vec3) : Mat3 :=
  ⟨⟨0, v.z, -v.y⟩, ⟨-v.z, 0, v.x⟩, ⟨v.y, -v.x, 0⟩⟩

/-- The denominator `grad_C.transpose() * inv_M.asDiagonal() * grad_C` of the
shared projection kernel, with the 3N-component vectors grouped into one
3-vector per particle. -/
noncomputable def kernelDenom (n : ℕ) (grad_C inv_M : Fin n → Vec3) : ℝ :=
  ∑ j, Vec3.dot (Vec3.cmul (inv_M j) (grad_C j)) (grad_C j)

/-- `projectPositions` from `constraint.cpp`.  The guard
`grad_C.isApprox(Zero)` holds exactly when the gradient is the zero vector.
Past the guard the code computes `s = C / denom` and
`delta_x = -s * inv_M.asDiagonal() * grad_C`, then adds
`stiffness * delta_x.segment(3j, 3)` to each particle's predicted position.
When `denom` is exactly zero the IEEE division produces Inf or NaN and the
per-particle products (`Inf * 0`, `NaN * w`) poison every updated position
with NaN; that non-finite outcome is modelled as `none`. -/
noncomputable def projectPositions (n : ℕ) (C : ℝ) (grad_C inv_M : Fin n → Vec3)
    (stiffness : ℝ) (particles : Fin n → Vec3) : Option (Fin n → Vec3) :=
  if ∀ j, grad_C j = 0 then some particles
  else if kernelDenom n grad_C inv_M = 0 then none
  else
    some (fun j =>
      particles j +
        stiffness • ((-(C / kernelDenom n grad_C inv_M)) • Vec3.cmul (inv_M j) (grad_C j)))

/-- `constructInverseMassMatrix` from `constraint.cpp`: each particle's
inverse mass `w` replicated on its three axes. -/
def constructInverseMassMatrix (n : ℕ) (w : Fin n → ℝ) : Fin n → Vec3 :=
  fun j => ⟨w j, w j, w j⟩

/-- `DistanceConstraint::calculateValue`: `(x_0 - x_1).norm() - d`. -/
noncomputable def distanceCalculateValue (x0 x1 : Vec3) (d : ℝ) : ℝ :=
  Vec3.norm (x0 - x1) - d

/-- `DistanceConstraint::calculateGrad`: `n = (x_0 - x_1).normalized()`; the
result has NaN exactly when `x_0 = x_1`, and then `n` is replaced by
`Eigen::Vector3d::Random(3).normalized()`.  `Random` draws from the global C
PRNG (`std::rand`), so the replacement is modelled by the extra argument `r`,
the normalized random draw the PRNG happens to produce.  The output is `+n`
for particle 0 and `-n` for particle 1. -/
noncomputable def distanceCalculateGrad (x0 x1 : Vec3) (r : Vec3) : Fin 2 → Vec3 :=
  let nv := if x0 = x1 then r else Vec3.normalized (x0 - x1)
  ![nv, -nv]

/-- `DistanceConstraint::projectParticles`: compute `C` and the gradient, then
invoke the shared kernel with the cached inverse-mass vector. -/
noncomputable def distanceProjectParticles (d stiffness : ℝ) (w : Fin 2 → ℝ)
    (p : Fin 2 → Vec3) (r : Vec3) : Option (Fin 2 → Vec3) :=
  projectPositions 2 (distanceCalculateValue (p 0) (p 1) d)
    (distanceCalculateGrad (p 0) (p 1) r) (constructInverseMassMatrix 2 w) stiffness p

/-- `EnvironmentalCollisionConstraint::calculateValue`: `n.transpose() * x - d`. -/
def envCollisionCalculateValue (nrm : Vec3) (d : ℝ) (xp : Vec3) : ℝ :=
  Vec3.dot nrm xp - d

/-- `EnvironmentalCollisionConstraint::calculateGrad`: the constant plane
normal `m_n`. -/
def envCollisionCalculateGrad (nrm : Vec3) : Fin 1 → Vec3 := fun _ => nrm

/-- `EnvironmentalCollisionConstraint::projectParticles`: early-returns when
`C >= 0`, otherwise invokes the shared kernel. -/
noncomputable def envCollisionProjectParticles (nrm : Vec3) (d stiffness : ℝ)
    (w : Fin 1 → ℝ) (p : Fin 1 → Vec3) : Option (Fin 1 → Vec3) :=
  if 0 ≤ envCollisionCalculateValue nrm d (p 0) then some p
  else
    projectPositions 1 (envCollisionCalculateValue nrm d (p 0))
      (envCollisionCalculateGrad nrm) (constructInverseMassMatrix 1 w) stiffness p

/-- `FixedPointConstraint::calculateValue`: `(x - m_point).norm()`. -/
noncomputable def fixedPointCalculateValue (point xp : Vec3) : ℝ :=
  Vec3.norm (xp - point)

/-- `FixedPointConstraint::calculateGrad`: `n = (x - m_point).normalized()`.
When `x = m_point` every component of `n` is IEEE `0/0 = NaN`; the
`hasNaN` branch zero-fills the output buffer, but the `memcpy` that follows
is unconditional and overwrites the buffer with `n` again, so the caller
receives the NaN vector — modelled as `none`. -/
noncomputable def fixedPointCalculateGrad (point xp : Vec3) : Option (Fin 1 → Vec3) :=
  if xp = point then none else some (fun _ => Vec3.normalized (xp - point))

/-- `FixedPointConstraint::projectParticles`.  A NaN gradient fails the
kernel's `isApprox(Zero)` guard (NaN comparisons are false), makes `s` NaN
and NaN-poisons the position, hence `none`. -/
noncomputable def fixedPointProjectParticles (point : Vec3) (stiffness : ℝ)
    (w : Fin 1 → ℝ) (p : Fin 1 → Vec3) : Option (Fin 1 → Vec3) :=
  match fixedPointCalculateGrad point (p 0) with
  | none => none
  | some g =>
      projectPositions 1 (fixedPointCalculateValue point (p 0)) g
        (constructInverseMassMatrix 1 w) stiffness p

/-- The `constexpr double epsilon = 1e-12` of `BendingConstraint::calculateGrad`. -/
noncomputable def bendingEpsilon : ℝ := 1 / 10 ^ 12

/-- `BendingConstraint::calculateValue`: the dihedral angle between the
normals of triangles (0,1,2) and (0,1,3) minus the rest angle, the dot of the
normals clamped into [-1, 1] before `acos`.  When a cross product is the zero
vector its `normalized()` is the NaN vector, and then under IEEE comparison
rules `std::max(-1.0, NaN) = -1.0` and `std::min(1.0, -1.0) = -1.0`, so
`acos` yields `pi`. -/
noncomputable def bendingCalculateValue (restAngle : ℝ) (xs : Fin 4 → Vec3) : ℝ :=
  let p10 := xs 1 - xs 0
  let p20 := xs 2 - xs 0
  let p30 := xs 3 - xs 0
  if Vec3.cross p10 p20 = 0 ∨ Vec3.cross p10 p30 = 0 then Real.pi - restAngle
  else
    Real.arccos
        (min 1 (max (-1)
          (Vec3.dot (Vec3.normalized (Vec3.cross p10 p20))
            (Vec3.normalized (Vec3.cross p10 p30))))) - restAngle

/-- `BendingConstraint::calculateGrad`, translated clause by clause.  When a
cross product is zero its normalized vector is NaN, `d` is NaN, the branch
test `|d| - 1 < epsilon` is false on NaN, and the whole output is
NaN-contaminated: `none`.  Otherwise the code tests `|d| - 1.0 < epsilon`
and returns zeros when the test holds; past the test it evaluates the two
`calculate_gradient_of_normalized_cross_product_wrt_p_*` lambdas at exactly
the call-site arguments of the source (first lambda parameter `p_1`, second
`p_2`, third `n`). -/
noncomputable def bendingCalculateGrad (xs : Fin 4 → Vec3) : Option (Fin 4 → Vec3) :=
  let p1 := xs 1 - xs 0
  let p2 := xs 2 - xs 0
  let p3 := xs 3 - xs 0
  if Vec3.cross p1 p2 = 0 ∨ Vec3.cross p1 p3 = 0 then none
  else
    let n0 := Vec3.normalized (Vec3.cross p1 p2)
    let n1 := Vec3.normalized (Vec3.cross p1 p3)
    let d := Vec3.dot n0 n1
    if |d| - 1 < bendingEpsilon then some (fun _ => 0)
    else
      let commonCoeff := -1 / Real.sqrt (1 - d * d)
      let gradNCPwrtP1 := fun (q1 q2 nn : Vec3) =>
        (1 / Vec3.norm (Vec3.cross q1 q2)) •
          (-(convertVectorToCrossOperator q2) + Mat3.outer nn (Vec3.cross nn q2))
      let gradNCPwrtP2 := fun (q1 q2 nn : Vec3) =>
        -((1 / Vec3.norm (Vec3.cross q1 q2)) •
          (-(convertVectorToCrossOperator q1) + Mat3.outer nn (Vec3.cross nn q1)))
      let g1 := commonCoeff •
        (Mat3.mulVec (Mat3.transpose (gradNCPwrtP1 n0 p1 p2)) n1 +
          Mat3.mulVec (Mat3.transpose (gradNCPwrtP1 n1 p1 p3)) n0)
      let g2 := commonCoeff • Mat3.mulVec (Mat3.transpose (gradNCPwrtP2 n0 p1 p2)) n1
      let g3 := commonCoeff • Mat3.mulVec (Mat3.transpose (gradNCPwrtP2 n1 p1 p3)) n0
      let g0 := -g1 - g2 - g3
      some ![g0, g1, g2, g3]

/-- `BendingConstraint::projectParticles`: compute `C` and the gradient, then
invoke the shared kernel.  Modelled from the spec: `BendingConstraint`'s
cached member `m_inv_M` is declared in the class header, which is not among
the repository's files; the spec says every subtype caches "a per-subtype
cached inverse-mass vector (length = 3 × particle count) built once at
construction from the referenced particles' inverse masses", so it is taken
to be `constructInverseMassMatrix` of the particles' inverse masses `w`. -/
noncomputable def bendingProjectParticles (restAngle stiffness : ℝ) (w : Fin 4 → ℝ)
    (p : Fin 4 → Vec3) : Option (Fin 4 → Vec3) :=
  match bendingCalculateGrad p with
  | none => none
  | some g =>
      projectPositions 4 (bendingCalculateValue restAngle p) g
        (constructInverseMassMatrix 4 w) stiffness p

/-- `IsometricBendingConstraint::calculateValue`: `0.5 * sum_{i,j} Q(i,j) *
(p_i . p_j)` over the four current particle positions, with `m_Q` the matrix
fixed at construction. -/
def isometricBendingCalculateValue (Q : Fin 4 → Fin 4 → ℝ) (p : Fin 4 → Vec3) : ℝ :=
  0.5 * ∑ i, ∑ j, Q i j * Vec3.dot (p i) (p j)

/-- `IsometricBendingConstraint::calculateGrad`: block `i` of the output is
`sum_j Q(i,j) * p_j`. -/
def isometricBendingCalculateGrad (Q : Fin 4 → Fin 4 → ℝ) (p : Fin 4 → Vec3) :
    Fin 4 → Vec3 :=
  fun i => ∑ j, Q i j • p j

/-- `IsometricBendingConstraint::projectParticles`. -/
noncomputable def isometricBendingProjectParticles (Q : Fin 4 → Fin 4 → ℝ)
    (stiffness : ℝ) (w : Fin 4 → ℝ) (p : Fin 4 → Vec3) : Option (Fin 4 → Vec3) :=
  projectPositions 4 (isometricBendingCalculateValue Q p)
    (isometricBendingCalculateGrad Q p) (constructInverseMassMatrix 4 w) stiffness p

/-- Coordinate `k` of a 3-vector. -/
def coord (k : Fin 3) (v : Vec3) : ℝ := ![v.x, v.y, v.z] k

/-- The stacked 12-component view of four particle positions, indexed by
(particle, axis): component (j, k) is coordinate `k` of particle `j`.  This
is the spec's "4 stacked particle positions" vector. -/
def stacked (p : Fin 4 → Vec3) : Fin 4 × Fin 3 → ℝ := fun a => coord a.2 (p a.1)

/-- The 12x12 block expansion of the 4x4 matrix `Q` acting on stacked
positions: `Q ⊗ I_3`, with entry ((i,k),(j,l)) equal to `Q(i,j)` when
`k = l` and `0` otherwise.  This is the matrix the spec's `½ xᵗQx` quadratic
form and block-wise product `Qx` refer to. -/
def stackedQ (Q : Fin 4 → Fin 4 → ℝ) : (Fin 4 × Fin 3) → (Fin 4 × Fin 3) → ℝ :=
  fun a b => if a.2 = b.2 then Q a.1 b.1 else 0

@[simp]
theorem Vec3.zero_def : (0 : Vec3) = ⟨0, 0, 0⟩ := rfl

@[simp]
theorem Vec3.add_def (a b : Vec3) : a + b = ⟨a.x + b.x, a.y + b.y, a.z + b.z⟩ := rfl

@[simp]
theorem Vec3.sub_def (a b : Vec3) : a - b = ⟨a.x - b.x, a.y - b.y, a.z - b.z⟩ := rfl

@[simp]
theorem Vec3.neg_def (a : Vec3) : -a = ⟨-a.x, -a.y, -a.z⟩ := rfl

@[simp]
theorem Vec3.smul_def (c : ℝ) (a : Vec3) : c • a = ⟨c * a.x, c * a.y, c * a.z⟩ := rfl

theorem Vec3.eq_zero_iff {v : Vec3} : v = 0 ↔ v.x = 0 ∧ v.y = 0 ∧ v.z = 0 := by
  constructor
  · rintro rfl
    exact ⟨rfl, rfl, rfl⟩
  · rintro ⟨h1, h2, h3⟩
    ext <;> assumption

/-- Evaluate `Real.sqrt` at a perfect square. -/
theorem sqrt_eval {a b : ℝ} (hb : 0 ≤ b) (h : a = b ^ 2) : Real.sqrt a = b := by
  rw [h, Real.sqrt_sq hb]

theorem Vec3.dot_self_nonneg (v : Vec3) : 0 ≤ Vec3.dot v v := by
  simp only [Vec3.dot]
  nlinarith [mul_self_nonneg v.x, mul_self_nonneg v.y, mul_self_nonneg v.z]

theorem Vec3.dot_self_eq_zero {v : Vec3} : Vec3.dot v v = 0 ↔ v = 0 := by
  constructor
  · intro h
    simp only [Vec3.dot] at h
    have hx : v.x * v.x = 0 :=
      le_antisymm (by nlinarith [mul_self_nonneg v.y, mul_self_nonneg v.z]) (mul_self_nonneg _)
    have hy : v.y * v.y = 0 :=
      le_antisymm (by nlinarith [mul_self_nonneg v.x, mul_self_nonneg v.z]) (mul_self_nonneg _)
    have hz : v.z * v.z = 0 :=
      le_antisymm (by nlinarith [mul_self_nonneg v.x, mul_self_nonneg v.y]) (mul_self_nonneg _)
    ext <;> simpa using mul_self_eq_zero.mp (by assumption)
  · rintro rfl
    simp [Vec3.dot]

theorem Vec3.dot_self_pos {v : Vec3} (h : v ≠ 0) : 0 < Vec3.dot v v :=
  lt_of_le_of_ne (Vec3.dot_self_nonneg v) (fun e => h (Vec3.dot_self_eq_zero.mp e.symm))

theorem Vec3.cmul_mass_dot (wj : ℝ) (g : Vec3) :
    Vec3.dot (Vec3.cmul ⟨wj, wj, wj⟩ g) g = wj * Vec3.dot g g := by
  simp only [Vec3.cmul, Vec3.dot]
  ring

theorem Vec3.neg_zero_eq : -(0 : Vec3) = 0 := by
  have h : (0 : Vec3) = ⟨0, 0, 0⟩ := rfl
  rw [h]
  ext <;> norm_num

theorem distanceCalculateGrad_zero (x0 x1 r : Vec3) :
    distanceCalculateGrad x0 x1 r 0 =
      (if x0 = x1 then r else Vec3.normalized (x0 - x1)) := rfl

theorem distanceCalculateGrad_one (x0 x1 r : Vec3) :
    distanceCalculateGrad x0 x1 r 1 =
      -(if x0 = x1 then r else Vec3.normalized (x0 - x1)) := rfl

/-- C5: For EnvironmentalCollisionConstraint and every particle state, if the
violation `C = n·x − d` satisfies `C ≥ 0` then `projectParticles` is a no-op
and the particle's position is unchanged; the correction step runs only when
`C < 0`. -/
theorem claim5_env_collision_noop (nrm : Vec3) (d st : ℝ) (w : Fin 1 → ℝ)
    (p : Fin 1 → Vec3) (h : 0 ≤ envCollisionCalculateValue nrm d (p 0)) :
    envCollisionProjectParticles nrm d st w p = some p := by
  rw [envCollisionProjectParticles, if_pos h]

/-- C5 witness: plane `n = (0,1,0)`, `d = 0`, particle at `y = 1` (so
`C = 1 ≥ 0`): the call does not alter the position. -/
theorem claim5_env_collision_noop_witness :
    envCollisionProjectParticles ⟨0, 1, 0⟩ 0 1 (fun _ => 1) (fun _ => ⟨0, 1, 0⟩) =
      some (fun _ => ⟨0, 1, 0⟩) :=
  claim5_env_collision_noop _ _ _ _ _
    (by norm_num [envCollisionCalculateValue, Vec3.dot])

/-- C2: the claim says the degenerate FixedPointConstraint gradient is the
exact zero vector and the projection a no-op.  On the code, the zero-filled
buffer is unconditionally overwritten by `memcpy` of the NaN normalized
vector, so with the particle exactly at the target the gradient is NaN
(`none`) and `projectParticles` NaN-poisons the position instead of leaving
it unchanged. -/
theorem claim2_fixed_point_degenerate_grad_nan :
    fixedPointCalculateGrad ⟨1, 2, 3⟩ ⟨1, 2, 3⟩ = none ∧
      fixedPointProjectParticles ⟨1, 2, 3⟩ 1 (fun _ => 1) (fun _ => ⟨1, 2, 3⟩) = none := by
  constructor
  · rw [fixedPointCalculateGrad, if_pos rfl]
  · simp [fixedPointProjectParticles, fixedPointCalculateGrad]

/-- C6: the claim says every constraint at zero violation leaves positions
unchanged.  For FixedPointConstraint the zero-violation state is exactly the
particle sitting at the target, where the gradient buffer holds the NaN
normalized vector (the zero-fill is overwritten), so `projectParticles`
NaN-poisons the position instead of leaving it unchanged. -/
theorem claim6_fixed_point_zero_violation_nan :
    fixedPointCalculateValue ⟨0, 0, 0⟩ ⟨0, 0, 0⟩ = 0 ∧
      fixedPointProjectParticles ⟨0, 0, 0⟩ 1 (fun _ => 1) (fun _ => ⟨0, 0, 0⟩) = none := by
  constructor
  · simp [fixedPointCalculateValue, Vec3.norm, Vec3.dot]
  · simp [fixedPointProjectParticles, fixedPointCalculateGrad]

/-- C1: the claim says `BendingConstraint::calculateGrad` returns the
closed-form gradient whenever `|n₀·n₁|` is not within machine epsilon of 1.
On the code the guard reads `|d| - 1.0 < epsilon`, which holds for every
`d ∈ [-1, 1]`, so the zero vector is returned even at this right-angle
configuration where `n₀·n₁ = 0`. -/
theorem claim1_bending_grad_zero_despite_orthogonal_normals :
    bendingCalculateGrad ![⟨0, 0, 0⟩, ⟨1, 0, 0⟩, ⟨0, 1, 0⟩, ⟨0, 0, 1⟩] =
        some (fun _ => 0) ∧
      Vec3.dot
          (Vec3.normalized (Vec3.cross (⟨1, 0, 0⟩ - ⟨0, 0, 0⟩) (⟨0, 1, 0⟩ - ⟨0, 0, 0⟩)))
          (Vec3.normalized (Vec3.cross (⟨1, 0, 0⟩ - ⟨0, 0, 0⟩) (⟨0, 0, 1⟩ - ⟨0, 0, 0⟩))) = 0 := by
  have h10 : (⟨1, 0, 0⟩ : Vec3) - ⟨0, 0, 0⟩ = ⟨1, 0, 0⟩ := by norm_num
  have h20 : (⟨0, 1, 0⟩ : Vec3) - ⟨0, 0, 0⟩ = ⟨0, 1, 0⟩ := by norm_num
  have h30 : (⟨0, 0, 1⟩ : Vec3) - ⟨0, 0, 0⟩ = ⟨0, 0, 1⟩ := by norm_num
  have hc12 : Vec3.cross ⟨1, 0, 0⟩ ⟨0, 1, 0⟩ = ⟨0, 0, 1⟩ := by norm_num [Vec3.cross]
  have hc13 : Vec3.cross ⟨1, 0, 0⟩ ⟨0, 0, 1⟩ = ⟨0, -1, 0⟩ := by norm_num [Vec3.cross]
  have hn12 : Vec3.normalized ⟨0, 0, 1⟩ = ⟨0, 0, 1⟩ := by
    rw [Vec3.normalized, Vec3.norm, show Vec3.dot ⟨0, 0, 1⟩ ⟨0, 0, 1⟩ = 1 by
      norm_num [Vec3.dot], Real.sqrt_one]
    norm_num
  have hn13 : Vec3.normalized ⟨0, -1, 0⟩ = ⟨0, -1, 0⟩ := by
    rw [Vec3.normalized, Vec3.norm, show Vec3.dot ⟨0, -1, 0⟩ ⟨0, -1, 0⟩ = 1 by
      norm_num [Vec3.dot], Real.sqrt_one]
    norm_num
  have hd : Vec3.dot ⟨0, 0, 1⟩ ⟨0, -1, 0⟩ = 0 := by norm_num [Vec3.dot]
  constructor
  · have e1 : (![⟨0, 0, 0⟩, ⟨1, 0, 0⟩, ⟨0, 1, 0⟩, ⟨0, 0, 1⟩] : Fin 4 → Vec3) 1 -
        ![⟨0, 0, 0⟩, ⟨1, 0, 0⟩, ⟨0, 1, 0⟩, ⟨0, 0, 1⟩] 0 = ⟨1, 0, 0⟩ := h10
    have e2 : (![⟨0, 0, 0⟩, ⟨1, 0, 0⟩, ⟨0, 1, 0⟩, ⟨0, 0, 1⟩] : Fin 4 → Vec3) 2 -
        ![⟨0, 0, 0⟩, ⟨1, 0, 0⟩, ⟨0, 1, 0⟩, ⟨0, 0, 1⟩] 0 = ⟨0, 1, 0⟩ := h20
    have e3 : (![⟨0, 0, 0⟩, ⟨1, 0, 0⟩, ⟨0, 1, 0⟩, ⟨0, 0, 1⟩] : Fin 4 → Vec3) 3 -
        ![⟨0, 0, 0⟩, ⟨1, 0, 0⟩, ⟨0, 1, 0⟩, ⟨0, 0, 1⟩] 0 = ⟨0, 0, 1⟩ := h30
    rw [bendingCalculateGrad]
    rw [e1, e2, e3, hc12, hc13, hn12, hn13]
    rw [if_neg (by simp [Vec3.eq_zero_iff])]
    dsimp only
    rw [hd, if_pos (by rw [bendingEpsilon]; norm_num)]
  · rw [h10, h20, h30, hc12, hc13, hn12, hn13, hd]

/-- C9 counterexample: with the two particles coincident,
`DistanceConstraint::calculateGrad` returns whatever normalized vector the
global PRNG produces, so two invocations with different draws return
different gradients — the function is not deterministic in that state. -/
theorem claim9_coincident_grad_depends_on_rng :
    distanceCalculateGrad ⟨0, 0, 0⟩ ⟨0, 0, 0⟩ ⟨1, 0, 0⟩ ≠
      distanceCalculateGrad ⟨0, 0, 0⟩ ⟨0, 0, 0⟩ ⟨0, 1, 0⟩ := by
  intro h
  have h0 := congrFun h 0
  rw [distanceCalculateGrad_zero, distanceCalculateGrad_zero, if_pos rfl, if_pos rfl] at h0
  have := congrArg Vec3.x h0
  norm_num at this

/-- C9 (amended): `calculateValue` and `calculateGrad` are pure functions of
the constraint state and particle positions — except
`DistanceConstraint::calculateGrad` at coincident points, which depends on
the global PRNG draw.  Whenever the two points differ, the distance gradient
is independent of the random draw, i.e. deterministic across invocations. -/
theorem claim9_distance_grad_random_independent (x0 x1 r r' : Vec3) (h : x0 ≠ x1) :
    distanceCalculateGrad x0 x1 r = distanceCalculateGrad x0 x1 r' := by
  rw [distanceCalculateGrad, distanceCalculateGrad]
  rw [if_neg h, if_neg h]

/-- C9 witness: for distinct points `(0,0,0)` and `(1,0,0)` the gradient is
the same under two different random draws. -/
theorem claim9_distance_grad_random_independent_witness :
    distanceCalculateGrad ⟨0, 0, 0⟩ ⟨1, 0, 0⟩ ⟨1, 0, 0⟩ =
      distanceCalculateGrad ⟨0, 0, 0⟩ ⟨1, 0, 0⟩ ⟨0, 1, 0⟩ :=
  claim9_distance_grad_random_independent _ _ _ _ (by
    intro h
    have := congrArg Vec3.x h
    norm_num at this)

/-- C4 counterexample: a DistanceConstraint whose two particles are both
pinned (inverse mass 0): the gradient is a nonzero unit-vector pair, yet the
kernel's denominator is exactly zero and the division is evaluated — the
zero-gradient guard does not prevent a zero denominator. -/
theorem claim4_denominator_zero_with_nonzero_gradient :
    distanceCalculateGrad ⟨0, 0, 0⟩ ⟨1, 0, 0⟩ ⟨1, 0, 0⟩ 0 ≠ 0 ∧
      kernelDenom 2 (distanceCalculateGrad ⟨0, 0, 0⟩ ⟨1, 0, 0⟩ ⟨1, 0, 0⟩)
        (constructInverseMassMatrix 2 fun _ => 0) = 0 ∧
      projectPositions 2 (distanceCalculateValue ⟨0, 0, 0⟩ ⟨1, 0, 0⟩ 1)
        (distanceCalculateGrad ⟨0, 0, 0⟩ ⟨1, 0, 0⟩ ⟨1, 0, 0⟩)
        (constructInverseMassMatrix 2 fun _ => 0) 1 ![⟨0, 0, 0⟩, ⟨1, 0, 0⟩] = none := by
  have hne : (⟨0, 0, 0⟩ : Vec3) ≠ ⟨1, 0, 0⟩ := by
    intro h
    have := congrArg Vec3.x h
    norm_num at this
  have hsub : (⟨0, 0, 0⟩ : Vec3) - ⟨1, 0, 0⟩ = ⟨-1, 0, 0⟩ := by norm_num
  have hnv : Vec3.normalized ⟨-1, 0, 0⟩ = ⟨-1, 0, 0⟩ := by
    rw [Vec3.normalized, Vec3.norm, show Vec3.dot ⟨-1, 0, 0⟩ ⟨-1, 0, 0⟩ = 1 by
      norm_num [Vec3.dot], Real.sqrt_one]
    norm_num
  have h1 : distanceCalculateGrad ⟨0, 0, 0⟩ ⟨1, 0, 0⟩ ⟨1, 0, 0⟩ 0 ≠ 0 := by
    rw [distanceCalculateGrad_zero, if_neg hne, hsub, hnv]
    simp [Vec3.eq_zero_iff]
  have h2 : kernelDenom 2 (distanceCalculateGrad ⟨0, 0, 0⟩ ⟨1, 0, 0⟩ ⟨1, 0, 0⟩)
      (constructInverseMassMatrix 2 fun _ => 0) = 0 := by
    rw [kernelDenom, Fin.sum_univ_two]
    simp only [constructInverseMassMatrix]
    rw [Vec3.cmul_mass_dot, Vec3.cmul_mass_dot]
    ring
  exact ⟨h1, h2, by rw [projectPositions, if_neg fun hall => h1 (hall 0), if_pos h2]⟩

/-- C4 (amended): if the gradient is the zero vector the kernel skips the
update and positions are unchanged; whenever some particle with a nonzero
gradient block has strictly positive inverse mass the denominator is
strictly positive, so the division then never sees a zero denominator (the
guard is the pre-division zero-gradient check, not a post-hoc NaN check) —
but when every gradient-bearing particle is pinned the denominator is
exactly zero and the division still executes. -/
theorem claim4_zero_gradient_guard (n : ℕ) (C : ℝ) (grad : Fin n → Vec3)
    (w : Fin n → ℝ) (st : ℝ) (p : Fin n → Vec3) (hw : ∀ j, 0 ≤ w j) :
    ((∀ j, grad j = 0) →
        projectPositions n C grad (constructInverseMassMatrix n w) st p = some p) ∧
      ((∃ j, 0 < w j ∧ grad j ≠ 0) →
        0 < kernelDenom n grad (constructInverseMassMatrix n w)) := by
  constructor
  · intro hz
    rw [projectPositions, if_pos hz]
  · rintro ⟨j, hwj, hgj⟩
    rw [kernelDenom]
    apply Finset.sum_pos'
    · intro i _
      simp only [constructInverseMassMatrix, Vec3.cmul_mass_dot]
      exact mul_nonneg (hw i) (Vec3.dot_self_nonneg _)
    · refine ⟨j, Finset.mem_univ j, ?_⟩
      simp only [constructInverseMassMatrix, Vec3.cmul_mass_dot]
      exact mul_pos hwj (Vec3.dot_self_pos hgj)

/-- C4 witness: one particle, unit inverse mass, gradient `(1,0,0)`: the
skip branch is available only for the zero gradient, and the denominator is
strictly positive. -/
theorem claim4_zero_gradient_guard_witness :
    ((∀ j : Fin 1, (fun _ : Fin 1 => (⟨1, 0, 0⟩ : Vec3)) j = 0) →
        projectPositions 1 0 (fun _ => ⟨1, 0, 0⟩)
          (constructInverseMassMatrix 1 fun _ => 1) 0 (fun _ => 0) = some fun _ => 0) ∧
      ((∃ j : Fin 1, 0 < (fun _ : Fin 1 => (1 : ℝ)) j ∧
          (fun _ : Fin 1 => (⟨1, 0, 0⟩ : Vec3)) j ≠ 0) →
        0 < kernelDenom 1 (fun _ => ⟨1, 0, 0⟩) (constructInverseMassMatrix 1 fun _ => 1)) :=
  claim4_zero_gradient_guard 1 0 (fun _ => ⟨1, 0, 0⟩) (fun _ => 1) 0 (fun _ => 0)
    (fun _ => by norm_num)

/-- C7 counterexample: with BOTH particles pinned (inverse mass 0) the
gradient is still a nonzero unit pair, the denominator is exactly zero, and
the IEEE evaluation NaN-poisons every position — so "a particle whose
inverse mass is zero is never moved" fails: the pinned particle does not
retain its position, there is no finite output at all. -/
theorem claim7_all_pinned_poisoned :
    (fun _ : Fin 2 => (0 : ℝ)) 1 = 0 ∧
      distanceProjectParticles 1 1 (fun _ => 0) ![⟨0, 0, 0⟩, ⟨0, 3, 0⟩] ⟨1, 0, 0⟩ = none := by
  have hne : (⟨0, 0, 0⟩ : Vec3) ≠ ⟨0, 3, 0⟩ := by
    intro h
    have := congrArg Vec3.y h
    norm_num at this
  have hsub : (⟨0, 0, 0⟩ : Vec3) - ⟨0, 3, 0⟩ = ⟨0, -3, 0⟩ := by norm_num
  have hnv : Vec3.normalized ⟨0, -3, 0⟩ = ⟨0, -1, 0⟩ := by
    rw [Vec3.normalized, Vec3.norm,
      sqrt_eval (by norm_num : (0 : ℝ) ≤ 3) (by norm_num [Vec3.dot] : Vec3.dot ⟨0, -3, 0⟩ ⟨0, -3, 0⟩ = 3 ^ 2)]
    norm_num
  have h1 : distanceCalculateGrad ⟨0, 0, 0⟩ ⟨0, 3, 0⟩ ⟨1, 0, 0⟩ 0 ≠ 0 := by
    rw [distanceCalculateGrad_zero, if_neg hne, hsub, hnv]
    simp [Vec3.eq_zero_iff]
  have h2 : kernelDenom 2 (distanceCalculateGrad ⟨0, 0, 0⟩ ⟨0, 3, 0⟩ ⟨1, 0, 0⟩)
      (constructInverseMassMatrix 2 fun _ => 0) = 0 := by
    rw [kernelDenom, Fin.sum_univ_two]
    simp only [constructInverseMassMatrix]
    rw [Vec3.cmul_mass_dot, Vec3.cmul_mass_dot]
    ring
  refine ⟨rfl, ?_⟩
  simp only [distanceProjectParticles, Matrix.cons_val_zero, Matrix.cons_val_one,
    Matrix.head_cons]
  rw [projectPositions, if_neg fun hall => h1 (hall 0), if_pos h2]

/-- C7 (amended): whenever the kernel's denominator is nonzero (in
particular whenever some gradient-bearing particle is unpinned), the update
succeeds and every particle with inverse mass zero keeps its exact position;
for the spec's instance, a DistanceConstraint with `w₀ = 1, w₁ = 0`, the
projection always leaves particle 1 unchanged.  When every gradient-bearing
particle is pinned the denominator is zero and the positions are
NaN-poisoned instead. -/
theorem claim7_pinned_particle_unmoved :
    (∀ (n : ℕ) (C : ℝ) (grad : Fin n → Vec3) (w : Fin n → ℝ) (st : ℝ) (p : Fin n → Vec3),
        kernelDenom n grad (constructInverseMassMatrix n w) ≠ 0 →
        ∃ q, projectPositions n C grad (constructInverseMassMatrix n w) st p = some q ∧
          ∀ j, w j = 0 → q j = p j) ∧
      (∀ (d st : ℝ) (p : Fin 2 → Vec3) (r : Vec3),
        ∃ q, distanceProjectParticles d st ![1, 0] p r = some q ∧ q 1 = p 1) := by
  have hsmul0 : ∀ c : ℝ, c • (0 : Vec3) = 0 := fun c => by ext <;> simp
  have hB : ∀ (n : ℕ) (C : ℝ) (grad : Fin n → Vec3) (w : Fin n → ℝ) (st : ℝ)
      (p : Fin n → Vec3),
      kernelDenom n grad (constructInverseMassMatrix n w) ≠ 0 →
      ∃ q, projectPositions n C grad (constructInverseMassMatrix n w) st p = some q ∧
        ∀ j, w j = 0 → q j = p j := by
    intro n C grad w st p hd
    by_cases hz : ∀ j, grad j = 0
    · exact ⟨p, by rw [projectPositions, if_pos hz], fun j _ => rfl⟩
    · refine ⟨_, by rw [projectPositions, if_neg hz, if_neg hd], ?_⟩
      intro j hwj
      have hc : Vec3.cmul (constructInverseMassMatrix n w j) (grad j) = 0 := by
        simp [constructInverseMassMatrix, Vec3.cmul, hwj, Vec3.eq_zero_iff]
      rw [hc, hsmul0, hsmul0, add_zero]
  refine ⟨hB, ?_⟩
  intro d st p r
  by_cases hz : ∀ j : Fin 2, distanceCalculateGrad (p 0) (p 1) r j = 0
  · exact ⟨p, by rw [distanceProjectParticles, projectPositions, if_pos hz], rfl⟩
  · have hnv : distanceCalculateGrad (p 0) (p 1) r 0 ≠ 0 := by
      intro h0
      apply hz
      intro j
      fin_cases j
      · exact h0
      · show distanceCalculateGrad (p 0) (p 1) r 1 = 0
        rw [distanceCalculateGrad_zero] at h0
        rw [distanceCalculateGrad_one, h0]
        exact Vec3.neg_zero_eq
    have hdenom : kernelDenom 2 (distanceCalculateGrad (p 0) (p 1) r)
        (constructInverseMassMatrix 2 ![1, 0]) ≠ 0 := by
      rw [kernelDenom, Fin.sum_univ_two]
      simp only [constructInverseMassMatrix]
      rw [show ((![1, 0] : Fin 2 → ℝ) 0) = 1 from rfl,
        show ((![1, 0] : Fin 2 → ℝ) 1) = 0 from rfl, Vec3.cmul_mass_dot,
        Vec3.cmul_mass_dot, one_mul, zero_mul, add_zero]
      exact ne_of_gt (Vec3.dot_self_pos hnv)
    obtain ⟨q, hq, hq1⟩ := hB 2 (distanceCalculateValue (p 0) (p 1) d)
      (distanceCalculateGrad (p 0) (p 1) r) ![1, 0] st p hdenom
    exact ⟨q, by rw [distanceProjectParticles]; exact hq, hq1 1 rfl⟩

/-- C3 counterexample: a DistanceConstraint between two pinned particles
(inverse masses both 0): the gradient is nonzero, yet `projectParticles`
does not increment the positions by the claimed update — the zero
denominator makes the IEEE arithmetic NaN-poison the positions (`none`). -/
theorem claim3_pinned_pair_zero_denominator :
    distanceCalculateGrad ⟨0, 0, 0⟩ ⟨2, 0, 0⟩ ⟨1, 0, 0⟩ 0 ≠ 0 ∧
      distanceProjectParticles 1 1 (fun _ => 0) ![⟨0, 0, 0⟩, ⟨2, 0, 0⟩] ⟨1, 0, 0⟩ = none := by
  have hne : (⟨0, 0, 0⟩ : Vec3) ≠ ⟨2, 0, 0⟩ := by
    intro h
    have := congrArg Vec3.x h
    norm_num at this
  have hsub : (⟨0, 0, 0⟩ : Vec3) - ⟨2, 0, 0⟩ = ⟨-2, 0, 0⟩ := by norm_num
  have hnv : Vec3.normalized ⟨-2, 0, 0⟩ = ⟨-1, 0, 0⟩ := by
    rw [Vec3.normalized, Vec3.norm,
      sqrt_eval (by norm_num : (0 : ℝ) ≤ 2) (by norm_num [Vec3.dot] : Vec3.dot ⟨-2, 0, 0⟩ ⟨-2, 0, 0⟩ = 2 ^ 2)]
    norm_num
  have h1 : distanceCalculateGrad ⟨0, 0, 0⟩ ⟨2, 0, 0⟩ ⟨1, 0, 0⟩ 0 ≠ 0 := by
    rw [distanceCalculateGrad_zero, if_neg hne, hsub, hnv]
    simp [Vec3.eq_zero_iff]
  have h2 : kernelDenom 2 (distanceCalculateGrad ⟨0, 0, 0⟩ ⟨2, 0, 0⟩ ⟨1, 0, 0⟩)
      (constructInverseMassMatrix 2 fun _ => 0) = 0 := by
    rw [kernelDenom, Fin.sum_univ_two]
    simp only [constructInverseMassMatrix]
    rw [Vec3.cmul_mass_dot, Vec3.cmul_mass_dot]
    ring
  refine ⟨h1, ?_⟩
  simp only [distanceProjectParticles, Matrix.cons_val_zero, Matrix.cons_val_one,
    Matrix.head_cons]
  rw [projectPositions, if_neg fun hall => h1 (hall 0), if_pos h2]

/-- C3 (amended): every constraint subtype reduces `projectParticles` to the
shared kernel on its own violation value, gradient and cached inverse-mass
vector, and for every state whose gradient is nonzero AND whose weighted
denominator `∇Cᵗ·diag(invM)·∇C` is nonzero, the kernel increments each
particle's position by exactly `stiffness · Δx_i` with
`Δx_i = −(C/denom) · invM_i · ∇C_i`; when the denominator is zero the
positions are NaN-poisoned instead of incremented. -/
theorem claim3_kernel_update_formula (n : ℕ) (C : ℝ) (grad invM : Fin n → Vec3)
    (st : ℝ) (p : Fin n → Vec3) (hg : ¬ ∀ j, grad j = 0)
    (hd : kernelDenom n grad invM ≠ 0) :
    projectPositions n C grad invM st p =
        some (fun j => p j +
          st • ((-(C / kernelDenom n grad invM)) • Vec3.cmul (invM j) (grad j))) ∧
      (∀ (d' st' : ℝ) (w : Fin 2 → ℝ) (p' : Fin 2 → Vec3) (r : Vec3),
        distanceProjectParticles d' st' w p' r =
          projectPositions 2 (distanceCalculateValue (p' 0) (p' 1) d')
            (distanceCalculateGrad (p' 0) (p' 1) r) (constructInverseMassMatrix 2 w) st' p') ∧
      (∀ (nrm : Vec3) (d' st' : ℝ) (w : Fin 1 → ℝ) (p' : Fin 1 → Vec3),
        envCollisionCalculateValue nrm d' (p' 0) < 0 →
        envCollisionProjectParticles nrm d' st' w p' =
          projectPositions 1 (envCollisionCalculateValue nrm d' (p' 0))
            (envCollisionCalculateGrad nrm) (constructInverseMassMatrix 1 w) st' p') ∧
      (∀ (pt : Vec3) (st' : ℝ) (w : Fin 1 → ℝ) (p' : Fin 1 → Vec3) (g : Fin 1 → Vec3),
        fixedPointCalculateGrad pt (p' 0) = some g →
        fixedPointProjectParticles pt st' w p' =
          projectPositions 1 (fixedPointCalculateValue pt (p' 0)) g
            (constructInverseMassMatrix 1 w) st' p') ∧
      (∀ (ra st' : ℝ) (w : Fin 4 → ℝ) (p' : Fin 4 → Vec3) (g : Fin 4 → Vec3),
        bendingCalculateGrad p' = some g →
        bendingProjectParticles ra st' w p' =
          projectPositions 4 (bendingCalculateValue ra p') g
            (constructInverseMassMatrix 4 w) st' p') ∧
      (∀ (Q : Fin 4 → Fin 4 → ℝ) (st' : ℝ) (w : Fin 4 → ℝ) (p' : Fin 4 → Vec3),
        isometricBendingProjectParticles Q st' w p' =
          projectPositions 4 (isometricBendingCalculateValue Q p')
            (isometricBendingCalculateGrad Q p') (constructInverseMassMatrix 4 w) st' p') := by
  refine ⟨by rw [projectPositions, if_neg hg, if_neg hd], fun d' st' w p' r => rfl,
    fun nrm d' st' w p' h => ?_, fun pt st' w p' g h => ?_, fun ra st' w p' g h => ?_,
    fun Q st' w p' => rfl⟩
  · rw [envCollisionProjectParticles, if_neg (not_le.mpr h)]
  · rw [fixedPointProjectParticles, h]
  · rw [bendingProjectParticles, h]

/-- C3 witness: one particle with inverse-mass block `(1,1,1)`, gradient
`(1,0,0)`, `C = 1`, stiffness 1: the gradient is nonzero, the denominator is
1, and the kernel yields exactly the claimed increment. -/
theorem claim3_kernel_update_formula_witness :
    projectPositions 1 1 (fun _ => ⟨1, 0, 0⟩) (fun _ => ⟨1, 1, 1⟩) 1 (fun _ => 0) =
      some (fun j => (fun _ : Fin 1 => (0 : Vec3)) j +
        (1 : ℝ) • ((-(1 / kernelDenom 1 (fun _ => ⟨1, 0, 0⟩) (fun _ => ⟨1, 1, 1⟩))) •
          Vec3.cmul ((fun _ : Fin 1 => (⟨1, 1, 1⟩ : Vec3)) j)
            ((fun _ : Fin 1 => (⟨1, 0, 0⟩ : Vec3)) j))) :=
  (claim3_kernel_update_formula 1 1 (fun _ => ⟨1, 0, 0⟩) (fun _ => ⟨1, 1, 1⟩) 1 (fun _ => 0)
    (fun hall => by
      have h := congrArg Vec3.x (hall 0)
      simp at h)
    (by
      rw [kernelDenom, Fin.sum_univ_one]
      norm_num [Vec3.cmul, Vec3.dot])).1

/-- C10: for an EnvironmentalCollisionConstraint with unit normal, stiffness
1 and positive inverse mass, a penetrating particle (`C < 0`) is corrected
by exactly `−C·n` (the inverse mass cancels), landing exactly on the plane. -/
theorem claim10_env_collision_exact_projection (nrm : Vec3) (d : ℝ) (w : Fin 1 → ℝ)
    (p : Fin 1 → Vec3) (hn : Vec3.dot nrm nrm = 1) (hw : 0 < w 0)
    (hC : envCollisionCalculateValue nrm d (p 0) < 0) :
    ∃ q, envCollisionProjectParticles nrm d 1 w p = some q ∧
      q 0 = p 0 + (-envCollisionCalculateValue nrm d (p 0)) • nrm ∧
      envCollisionCalculateValue nrm d
        (p 0 + (-envCollisionCalculateValue nrm d (p 0)) • nrm) = 0 := by
  have hn' : nrm.x * nrm.x + nrm.y * nrm.y + nrm.z * nrm.z = 1 := hn
  have hnrm : nrm ≠ 0 := by
    intro e
    rw [e] at hn
    simp [Vec3.dot] at hn
  have hw' : w 0 ≠ 0 := ne_of_gt hw
  have hdenom : kernelDenom 1 (envCollisionCalculateGrad nrm)
      (constructInverseMassMatrix 1 w) = w 0 := by
    rw [kernelDenom, Fin.sum_univ_one]
    show Vec3.dot (Vec3.cmul ⟨w 0, w 0, w 0⟩ nrm) nrm = w 0
    rw [Vec3.cmul_mass_dot, hn, mul_one]
  have hgne : ¬ ∀ j : Fin 1, envCollisionCalculateGrad nrm j = 0 := fun hall => hnrm (hall 0)
  have hd0 : kernelDenom 1 (envCollisionCalculateGrad nrm)
      (constructInverseMassMatrix 1 w) ≠ 0 := by
    rw [hdenom]
    exact hw'
  rw [envCollisionProjectParticles, if_neg (not_le.mpr hC)]
  rw [projectPositions, if_neg hgne, if_neg hd0]
  have hq0 : p 0 + (1 : ℝ) •
      ((-(envCollisionCalculateValue nrm d (p 0) /
          kernelDenom 1 (envCollisionCalculateGrad nrm) (constructInverseMassMatrix 1 w))) •
        Vec3.cmul (constructInverseMassMatrix 1 w 0) (envCollisionCalculateGrad nrm 0)) =
      p 0 + (-envCollisionCalculateValue nrm d (p 0)) • nrm := by
    rw [hdenom]
    show p 0 + (1 : ℝ) • ((-(envCollisionCalculateValue nrm d (p 0) / w 0)) •
      Vec3.cmul ⟨w 0, w 0, w 0⟩ nrm) = p 0 + (-envCollisionCalculateValue nrm d (p 0)) • nrm
    ext <;> (simp only [Vec3.cmul, Vec3.add_def, Vec3.smul_def]; field_simp; ring)
  refine ⟨_, rfl, hq0, ?_⟩
  simp only [envCollisionCalculateValue, Vec3.add_def, Vec3.smul_def, Vec3.dot] at hC ⊢
  linear_combination (-(nrm.x * (p 0).x + nrm.y * (p 0).y + nrm.z * (p 0).z - d)) * hn'

/-- C10 witness: plane `n = (0,1,0)`, `d = 0`, inverse mass 2, particle at
`y = −1/2`: the correction is `−C·n = (0, 1/2, 0)` and the particle lands
exactly on the plane. -/
theorem claim10_env_collision_exact_projection_witness :
    ∃ q, envCollisionProjectParticles ⟨0, 1, 0⟩ 0 1 (fun _ => 2)
        (fun _ => ⟨0, -(1 / 2), 0⟩) = some q ∧
      q 0 = (fun _ : Fin 1 => (⟨0, -(1 / 2), 0⟩ : Vec3)) 0 +
        (-envCollisionCalculateValue ⟨0, 1, 0⟩ 0
          ((fun _ : Fin 1 => (⟨0, -(1 / 2), 0⟩ : Vec3)) 0)) • ⟨0, 1, 0⟩ ∧
      envCollisionCalculateValue ⟨0, 1, 0⟩ 0
        ((fun _ : Fin 1 => (⟨0, -(1 / 2), 0⟩ : Vec3)) 0 +
          (-envCollisionCalculateValue ⟨0, 1, 0⟩ 0
            ((fun _ : Fin 1 => (⟨0, -(1 / 2), 0⟩ : Vec3)) 0)) • ⟨0, 1, 0⟩) = 0 :=
  claim10_env_collision_exact_projection ⟨0, 1, 0⟩ 0 (fun _ => 2) (fun _ => ⟨0, -(1 / 2), 0⟩)
    (by norm_num [Vec3.dot]) (by norm_num)
    (by norm_num [envCollisionCalculateValue, Vec3.dot])

set_option maxHeartbeats 1000000 in
/-- C8: for any matrix `Q` fixed at construction, `calculateValue` is the
quadratic form `½ xᵗ(Q ⊗ I₃)x` of the stacked 12-component position vector,
and `calculateGrad` is the block matrix `Q ⊗ I₃` applied to the stacked
positions: coordinate (i,k) of the gradient is `∑ j, Q(i,j) * x_{j,k}`. -/
theorem claim8_isometric_bending_quadratic_form (Q : Fin 4 → Fin 4 → ℝ) (p : Fin 4 → Vec3) :
    isometricBendingCalculateValue Q p =
        (1 / 2) * ∑ a, ∑ b, stacked p a * stackedQ Q a b * stacked p b ∧
      ∀ a, stacked (isometricBendingCalculateGrad Q p) a =
        ∑ b, stackedQ Q a b * stacked p b := by
  constructor
  · rw [isometricBendingCalculateValue]
    simp only [Fintype.sum_prod_type, stacked, stackedQ, coord]
    simp only [Fin.sum_univ_four, Fin.sum_univ_three]
    simp only [Matrix.cons_val_zero, Matrix.cons_val_one, Matrix.head_cons,
      Matrix.cons_val_two, Matrix.vecTail, Matrix.vecHead]
    simp only [show ((0 : Fin 3) = 2) = False by simp, show ((1 : Fin 3) = 2) = False by simp,
      show ((2 : Fin 3) = 0) = False by simp, show ((2 : Fin 3) = 1) = False by simp,
      show ((0 : Fin 3) = 1) = False by simp, show ((1 : Fin 3) = 0) = False by simp,
      if_false, ite_self, add_zero]
    norm_num [Vec3.dot]
    ring
  · intro a
    obtain ⟨i, k⟩ := a
    fin_cases i <;> fin_cases k <;>
      · simp only [stacked, stackedQ, coord, isometricBendingCalculateGrad,
          Fintype.sum_prod_type, Fin.sum_univ_four, Fin.sum_univ_three]
        simp +decide [Matrix.cons_val_zero, Matrix.cons_val_one, Matrix.head_cons,
          Matrix.cons_val_two, Matrix.vecTail, Matrix.vecHead]
        try ring

end Elasty
